import Mathlib

/-!
Verification of the state-encoding and episode-orchestration logic of
`pyrl/agents/modelbased.py` (class `ModelBasedAgent`).

Embedding conventions: numpy float arrays are embedded as `List ℚ` (the machine
floats carry exact values in every scenario considered here), integer arrays as
`List ℤ`.  The random generator is embedded by passing its draws explicitly:
`u : ℚ` for `self.randGenerator.random()` and a natural draw `d` for
`self.randGenerator.randint`.  The planner collaborator is an opaque function
`List ℚ → ℤ`, and the calls the agent issues to it are recorded as an explicit
event list so that ordering and terminal-marking contracts can be stated.
-/

namespace PyRL

/-- An RLGlue observation: `doubleArray` of continuous features and `intArray`
of discrete features. -/
structure Obs where
  doubleArray : List ℚ
  intArray : List ℤ
deriving DecidableEq

/-- The size `b[1] - b[0] + 1` of one inclusive discrete dimension `(min, max)`. -/
def dimSize (d : ℤ × ℤ) : ℤ := d.2 - d.1 + 1

/-- Product of the sizes of a list of discrete dimensions. -/
def prodSizes (dims : List (ℤ × ℤ)) : ℤ := (dims.map dimSize).prod

/-- Embeds `int(reduce(lambda a, b: a * (b[1] - b[0] + 1), self.discStates, 1.0))`
(modelbased.py line 62): a left fold of the dimension sizes starting from `1`.
The Python accumulator is a float starting at `1.0`; it is embedded as an exact
integer. -/
def numDiscStatesOf (dims : List (ℤ × ℤ)) : ℤ :=
  dims.foldl (fun a d => a * dimSize d) 1

/-- Embeds the sum `(x * mxs).sum()` of `getDiscState` (modelbased.py lines
110-115), where `x = numpy.array(state) - self.discStates[:,0]` and
`mxs = numpy.array(list(mxs[:0:-1].cumprod()[::-1]) + [1])`, i.e. the multiplier
of dimension `i` is the product of the sizes of all later dimensions (`1` for
the last dimension).  The numpy expressions require `state` and `discStates`
to have equal length; the mismatched-length clause below is never reached in
any theorem (all of them carry an `inRanges` hypothesis forcing equal length). -/
def encDisc : List (ℤ × ℤ) → List ℤ → ℤ
  | [], _ => 0
  | _ :: _, [] => 0
  | d :: ds, v :: vs => (v - d.1) * prodSizes ds + encDisc ds vs

/-- Embeds `ModelBasedAgent.getDiscState` (modelbased.py lines 101-117):
if `self.numDiscStates > 1` return the mixed-radix sum, else return `0`.
`dims` stands for `self.discStates` and `nds` for `self.numDiscStates`. -/
def getDiscState (dims : List (ℤ × ℤ)) (nds : ℤ) (state : List ℤ) : ℤ :=
  if 1 < nds then encDisc dims state else 0

/-- `inRanges dims state` holds when `state` has one value per dimension and
each value lies in its dimension's inclusive `[min, max]` range (the "valid
combination" of the spec's bijection property). -/
def inRanges : List (ℤ × ℤ) → List ℤ → Bool
  | [], [] => true
  | d :: ds, v :: vs => (decide (d.1 ≤ v) && decide (v ≤ d.2)) && inRanges ds vs
  | _, _ => false

/-- Mixed-radix decoding, the mathematical inverse of `encDisc`; used only to
prove the bijection property of the encoder. -/
def decDisc : List (ℤ × ℤ) → ℤ → List ℤ
  | [], _ => []
  | d :: ds, k => (d.1 + k / prodSizes ds) :: decDisc ds (k % prodSizes ds)

lemma prodSizes_nil : prodSizes [] = 1 := rfl

lemma prodSizes_cons (d : ℤ × ℤ) (ds : List (ℤ × ℤ)) :
    prodSizes (d :: ds) = dimSize d * prodSizes ds := by
  simp [prodSizes]

lemma numDiscStatesOf_eq (dims : List (ℤ × ℤ)) :
    numDiscStatesOf dims = prodSizes dims := by
  have h : ∀ (l : List (ℤ × ℤ)) (a : ℤ),
      l.foldl (fun x d => x * dimSize d) a = a * prodSizes l := by
    intro l
    induction l with
    | nil => intro a; simp [prodSizes]
    | cons d ds ih =>
        intro a
        rw [List.foldl_cons, ih, prodSizes_cons, mul_assoc]
  rw [numDiscStatesOf, h, one_mul]

lemma inRanges_cons {d : ℤ × ℤ} {ds : List (ℤ × ℤ)} {v : ℤ} {vs : List ℤ} :
    inRanges (d :: ds) (v :: vs) = true ↔
      (d.1 ≤ v ∧ v ≤ d.2) ∧ inRanges ds vs = true := by
  simp [inRanges]

lemma sizes_pos_of_inRanges :
    ∀ {dims : List (ℤ × ℤ)} {s : List ℤ}, inRanges dims s = true →
      ∀ d ∈ dims, 1 ≤ dimSize d := by
  intro dims
  induction dims with
  | nil => intro s _ d hd; simp at hd
  | cons d0 ds ih =>
      intro s h d hd
      cases s with
      | nil => simp [inRanges] at h
      | cons v vs =>
          rw [inRanges_cons] at h
          rcases List.mem_cons.mp hd with rfl | hd2
          · obtain ⟨⟨hl, hr⟩, _⟩ := h
            simp only [dimSize]
            omega
          · exact ih h.2 d hd2

lemma prodSizes_pos {dims : List (ℤ × ℤ)}
    (h : ∀ d ∈ dims, 1 ≤ dimSize d) : 0 < prodSizes dims := by
  induction dims with
  | nil => simp [prodSizes]
  | cons d ds ih =>
      rw [prodSizes_cons]
      have h1 : 1 ≤ dimSize d := h d (List.mem_cons_self d ds)
      have h2 : 0 < prodSizes ds := ih fun x hx => h x (List.mem_cons_of_mem d hx)
      exact mul_pos (by omega) h2

lemma encDisc_range :
    ∀ {dims : List (ℤ × ℤ)} {s : List ℤ}, inRanges dims s = true →
      0 ≤ encDisc dims s ∧ encDisc dims s < prodSizes dims := by
  intro dims
  induction dims with
  | nil =>
      intro s h
      cases s with
      | nil => simp [encDisc, prodSizes]
      | cons v vs => simp [inRanges] at h
  | cons d ds ih =>
      intro s h
      cases s with
      | nil => simp [inRanges] at h
      | cons v vs =>
          rw [inRanges_cons] at h
          obtain ⟨⟨hl, hr⟩, ht⟩ := h
          obtain ⟨e0, eP⟩ := ih ht
          have hP : 0 < prodSizes ds := prodSizes_pos (sizes_pos_of_inRanges ht)
          simp only [encDisc, prodSizes_cons]
          constructor
          · have hn : 0 ≤ (v - d.1) * prodSizes ds :=
              mul_nonneg (by omega) hP.le
            linarith
          · have h1 : (v - d.1) * prodSizes ds ≤ (dimSize d - 1) * prodSizes ds :=
              mul_le_mul_of_nonneg_right (by simp only [dimSize]; omega) hP.le
            have h2 : (dimSize d - 1) * prodSizes ds =
                dimSize d * prodSizes ds - prodSizes ds := by ring
            linarith

lemma decDisc_encDisc :
    ∀ {dims : List (ℤ × ℤ)} {s : List ℤ}, inRanges dims s = true →
      decDisc dims (encDisc dims s) = s := by
  intro dims
  induction dims with
  | nil =>
      intro s h
      cases s with
      | nil => simp [decDisc]
      | cons v vs => simp [inRanges] at h
  | cons d ds ih =>
      intro s h
      cases s with
      | nil => simp [inRanges] at h
      | cons v vs =>
          rw [inRanges_cons] at h
          obtain ⟨⟨hl, hr⟩, ht⟩ := h
          obtain ⟨e0, eP⟩ := encDisc_range ht
          have hP : 0 < prodSizes ds := prodSizes_pos (sizes_pos_of_inRanges ht)
          have hdiv : ((v - d.1) * prodSizes ds + encDisc ds vs) / prodSizes ds
              = v - d.1 := by
            rw [add_comm, Int.add_mul_ediv_right _ _ hP.ne',
              Int.ediv_eq_zero_of_lt e0 eP, zero_add]
          have hmod : ((v - d.1) * prodSizes ds + encDisc ds vs) % prodSizes ds
              = encDisc ds vs := by
            rw [add_comm, Int.add_mul_emod_self, Int.emod_eq_of_lt e0 eP]
          simp only [encDisc, decDisc]
          rw [hdiv, hmod, ih ht]
          congr 1
          omega

lemma encDisc_decDisc :
    ∀ {dims : List (ℤ × ℤ)} (k : ℤ), (∀ d ∈ dims, 1 ≤ dimSize d) →
      0 ≤ k → k < prodSizes dims →
      inRanges dims (decDisc dims k) = true ∧ encDisc dims (decDisc dims k) = k := by
  intro dims
  induction dims with
  | nil =>
      intro k _ h0 hk
      rw [prodSizes_nil] at hk
      constructor
      · simp [decDisc, inRanges]
      · simp only [decDisc, encDisc]
        omega
  | cons d ds ih =>
      intro k hsz h0 hk
      have hP : 0 < prodSizes ds :=
        prodSizes_pos fun x hx => hsz x (List.mem_cons_of_mem d hx)
      have hs1 : 1 ≤ dimSize d := hsz d (List.mem_cons_self d ds)
      have hr0 : 0 ≤ k % prodSizes ds := Int.emod_nonneg k hP.ne'
      have hrP : k % prodSizes ds < prodSizes ds := Int.emod_lt_of_pos k hP
      have hq0 : 0 ≤ k / prodSizes ds := Int.ediv_nonneg h0 hP.le
      have hq : k / prodSizes ds < dimSize d := by
        rw [Int.ediv_lt_iff_lt_mul hP]
        rw [prodSizes_cons] at hk
        linarith
      obtain ⟨ir, ev⟩ := ih (k % prodSizes ds)
        (fun x hx => hsz x (List.mem_cons_of_mem d hx)) hr0 hrP
      constructor
      · simp only [decDisc]
        rw [inRanges_cons]
        refine ⟨⟨by omega, ?_⟩, ir⟩
        simp only [dimSize] at hq
        omega
      · simp only [decDisc, encDisc]
        rw [ev]
        have h1 : d.1 + k / prodSizes ds - d.1 = k / prodSizes ds := by ring
        rw [h1, mul_comm]
        exact Int.ediv_add_emod k (prodSizes ds)

/-- C1: for every fixed sequence of discrete dimensions (each an inclusive
`[min, max]` range, so `min ≤ max`) with `numDiscStates > 1`, the map computed
by `getDiscState` is a bijection from the Cartesian product of the declared
ranges onto `[0, numDiscStates)`: every valid combination maps into the range,
distinct valid combinations map to distinct indices, and every index in the
range is hit by exactly one valid combination. -/
theorem getDiscState_bijection (dims : List (ℤ × ℤ))
    (hr : ∀ d ∈ dims, d.1 ≤ d.2) (hgt : 1 < numDiscStatesOf dims) :
    (∀ s, inRanges dims s = true →
        0 ≤ getDiscState dims (numDiscStatesOf dims) s ∧
        getDiscState dims (numDiscStatesOf dims) s < numDiscStatesOf dims) ∧
    (∀ s t, inRanges dims s = true → inRanges dims t = true →
        getDiscState dims (numDiscStatesOf dims) s =
          getDiscState dims (numDiscStatesOf dims) t → s = t) ∧
    (∀ k : ℤ, 0 ≤ k → k < numDiscStatesOf dims →
        ∃ s, inRanges dims s = true ∧
          getDiscState dims (numDiscStatesOf dims) s = k ∧
          ∀ t, inRanges dims t = true →
            getDiscState dims (numDiscStatesOf dims) t = k → t = s) := by
  have hsz : ∀ d ∈ dims, 1 ≤ dimSize d := by
    intro d hd
    have := hr d hd
    simp only [dimSize]
    omega
  have hgd : ∀ s, getDiscState dims (numDiscStatesOf dims) s = encDisc dims s := by
    intro s
    simp only [getDiscState, if_pos hgt]
  refine ⟨?_, ?_, ?_⟩
  · intro s hs
    rw [hgd, numDiscStatesOf_eq]
    exact encDisc_range hs
  · intro s t hs ht heq
    rw [hgd, hgd] at heq
    calc s = decDisc dims (encDisc dims s) := (decDisc_encDisc hs).symm
      _ = decDisc dims (encDisc dims t) := by rw [heq]
      _ = t := decDisc_encDisc ht
  · intro k h0 hk
    rw [numDiscStatesOf_eq] at hk
    obtain ⟨ir, ev⟩ := encDisc_decDisc k hsz h0 hk
    refine ⟨decDisc dims k, ir, by rw [hgd]; exact ev, ?_⟩
    intro t htr hte
    rw [hgd] at hte
    rw [← hte]
    exact (decDisc_encDisc htr).symm

theorem getDiscState_bijection_witness :
    (∀ d ∈ [((0 : ℤ), (1 : ℤ)), ((0 : ℤ), (2 : ℤ))], d.1 ≤ d.2) ∧
    1 < numDiscStatesOf [((0 : ℤ), (1 : ℤ)), ((0 : ℤ), (2 : ℤ))] ∧
    ((∀ s, inRanges [((0 : ℤ), (1 : ℤ)), ((0 : ℤ), (2 : ℤ))] s = true →
        0 ≤ getDiscState [((0 : ℤ), (1 : ℤ)), ((0 : ℤ), (2 : ℤ))]
              (numDiscStatesOf [((0 : ℤ), (1 : ℤ)), ((0 : ℤ), (2 : ℤ))]) s ∧
        getDiscState [((0 : ℤ), (1 : ℤ)), ((0 : ℤ), (2 : ℤ))]
              (numDiscStatesOf [((0 : ℤ), (1 : ℤ)), ((0 : ℤ), (2 : ℤ))]) s <
          numDiscStatesOf [((0 : ℤ), (1 : ℤ)), ((0 : ℤ), (2 : ℤ))]) ∧
     (∀ s t, inRanges [((0 : ℤ), (1 : ℤ)), ((0 : ℤ), (2 : ℤ))] s = true →
        inRanges [((0 : ℤ), (1 : ℤ)), ((0 : ℤ), (2 : ℤ))] t = true →
        getDiscState [((0 : ℤ), (1 : ℤ)), ((0 : ℤ), (2 : ℤ))]
            (numDiscStatesOf [((0 : ℤ), (1 : ℤ)), ((0 : ℤ), (2 : ℤ))]) s =
          getDiscState [((0 : ℤ), (1 : ℤ)), ((0 : ℤ), (2 : ℤ))]
            (numDiscStatesOf [((0 : ℤ), (1 : ℤ)), ((0 : ℤ), (2 : ℤ))]) t → s = t) ∧
     (∀ k : ℤ, 0 ≤ k → k < numDiscStatesOf [((0 : ℤ), (1 : ℤ)), ((0 : ℤ), (2 : ℤ))] →
        ∃ s, inRanges [((0 : ℤ), (1 : ℤ)), ((0 : ℤ), (2 : ℤ))] s = true ∧
          getDiscState [((0 : ℤ), (1 : ℤ)), ((0 : ℤ), (2 : ℤ))]
              (numDiscStatesOf [((0 : ℤ), (1 : ℤ)), ((0 : ℤ), (2 : ℤ))]) s = k ∧
          ∀ t, inRanges [((0 : ℤ), (1 : ℤ)), ((0 : ℤ), (2 : ℤ))] t = true →
            getDiscState [((0 : ℤ), (1 : ℤ)), ((0 : ℤ), (2 : ℤ))]
                (numDiscStatesOf [((0 : ℤ), (1 : ℤ)), ((0 : ℤ), (2 : ℤ))]) t = k →
              t = s)) :=
  ⟨by decide, by decide,
    getDiscState_bijection [((0 : ℤ), (1 : ℤ)), ((0 : ℤ), (2 : ℤ))]
      (by decide) (by decide)⟩

/-- C8: whenever the stored `numDiscStates` is at most `1` (in particular with
zero discrete dimensions, or a single dimension of size `1`), `getDiscState`
returns `0` for every discrete-feature input. -/
theorem getDiscState_degenerate (dims : List (ℤ × ℤ)) (nds : ℤ) (s : List ℤ)
    (h : nds ≤ 1) : getDiscState dims nds s = 0 := by
  simp only [getDiscState]
  rw [if_neg (by omega)]

theorem getDiscState_degenerate_witness :
    numDiscStatesOf [((3 : ℤ), (3 : ℤ))] ≤ 1 ∧
    getDiscState [((3 : ℤ), (3 : ℤ))] (numDiscStatesOf [((3 : ℤ), (3 : ℤ))]) [3] = 0 :=
  ⟨by decide,
    getDiscState_degenerate [((3 : ℤ), (3 : ℤ))]
      (numDiscStatesOf [((3 : ℤ), (3 : ℤ))]) [3] (by decide)⟩

/-- The fields `agent_init` derives from the task specification
(modelbased.py lines 59-69): `self.numStates`, `self.discStates`,
`self.numDiscStates`, `self.numActions`. -/
structure AgentConfig where
  numStates : ℕ
  discStates : List (ℤ × ℤ)
  numDiscStates : ℤ
  numActions : ℤ
deriving DecidableEq

/-- The mutable agent state used by the lifecycle methods: the configuration
plus `self.epsilon` (set to `0.0` in `__init__`) and the Episode Context
`self.lastAction` / `self.lastObservation`.  `lastAction` holds the single
entry of the stored Action's `intArray`. -/
structure AgentState extends AgentConfig where
  epsilon : ℚ
  lastAction : ℤ
  lastObservation : Obs
deriving DecidableEq

/-- Embeds `self.randGenerator.randint(a, b)` (inclusive bounds): the rng's raw
draw is an arbitrary natural `d`, reduced into the range `[a, b]`.  Python's
`randint` returns each integer of `[a, b]` with equal probability; here a draw
`d` uniform on `[0, b - a]` induces exactly that distribution. -/
def randint (a b : ℤ) (d : ℕ) : ℤ := a + (d : ℤ) % (b - a + 1)

/-- Embeds the fused planning vector `s = numpy.zeros((len(state) + 1,));
s[0] = discState; s[1:] = state` of `getAction` (modelbased.py lines 95-97):
the encoded discrete index at position 0 followed by the continuous features. -/
def fuse (disc : ℚ) (state : List ℚ) : List ℚ := disc :: state

/-- A call the agent issues to the planner collaborator: `query s` stands for
`self.planner.getAction(s)` and `update phi_t a phi_tp r` for
`self.planner.updateExperience(phi_t, a, phi_tp, r)`.  The third field of
`update` is `none` exactly when the Python call passes `None` (the terminal
marker). -/
inductive PlannerCall where
  | query (s : List ℚ)
  | update (phi_t : List ℚ) (a : ℤ) (phi_tp : Option (List ℚ)) (reward : ℚ)
deriving DecidableEq

/-- Embeds `ModelBasedAgent.getAction` (modelbased.py lines 81-99).  `u` is the
draw of `self.randGenerator.random()`, `d` the raw draw behind
`self.randGenerator.randint(0, self.numActions-1)`, `planner` the collaborator's
`getAction`. -/
def getActionFun (st : AgentState) (planner : List ℚ → ℤ) (u : ℚ) (d : ℕ)
    (state : List ℚ) (discState : ℤ) : ℤ :=
  if u < st.epsilon then randint 0 (st.numActions - 1) d
  else planner (fuse (discState : ℚ) state)

/-- The planner calls issued during `getAction`: none on the exploration
branch, one `query` on the fused vector on the exploitation branch. -/
def getActionCalls (st : AgentState) (u : ℚ) (state : List ℚ)
    (discState : ℤ) : List PlannerCall :=
  if u < st.epsilon then [] else [PlannerCall.query (fuse (discState : ℚ) state)]

/-- Embeds numpy slice assignment `phi[1:] = state` where `phi` has `n + 1`
entries: an exact length match copies `state`; a length-1 `state` broadcasts
its single value; any other shape raises (`none`). -/
def sliceFill (n : ℕ) (state : List ℚ) : Option (List ℚ) :=
  if state.length = n then some state
  else if state.length = 1 then some (List.replicate n state.headI)
  else none

/-- Embeds `phi = numpy.zeros((self.numStates + 1,)); phi[0] = disc;
phi[1:] = state` (modelbased.py lines 155-160 and 181-183). -/
def buildPhi (n : ℕ) (disc : ℚ) (state : List ℚ) : Option (List ℚ) :=
  (sliceFill n state).map (fun t => disc :: t)

/-- Embeds `ModelBasedAgent.agent_start` (modelbased.py lines 120-136):
choose an action for the first observation, store the Episode Context, and
return the action; the first component lists the planner calls made. -/
def agent_start (st : AgentState) (planner : List ℚ → ℤ) (u : ℚ) (d : ℕ)
    (obs : Obs) : List PlannerCall × ℤ × AgentState :=
  let theState := obs.doubleArray
  let discState := getDiscState st.discStates st.numDiscStates obs.intArray
  let thisIntAction := getActionFun st planner u d theState discState
  (getActionCalls st u theState discState, thisIntAction,
    { st with lastAction := thisIntAction, lastObservation := obs })

/-- Embeds `ModelBasedAgent.agent_step` (modelbased.py lines 138-172): build
`phi_t` from the stored Episode Context and `phi_tp` from the new observation,
call `self.planner.updateExperience(phi_t, lastAction, phi_tp, reward)`, then
choose the next action with `getAction`, replace the Episode Context, and
return the action.  The planner-call list records the update first, then any
query made inside `getAction`, in program order.  The result is `none` when a
slice assignment would raise.  (The debug `print` of the previous continuous
state is not modelled.) -/
def agent_step (st : AgentState) (planner : List ℚ → ℤ) (u : ℚ) (d : ℕ)
    (reward : ℚ) (obs : Obs) : Option (List PlannerCall × ℤ × AgentState) :=
  let newState := obs.doubleArray
  let lastState := st.lastObservation.doubleArray
  let lastAction := st.lastAction
  let newDiscState := getDiscState st.discStates st.numDiscStates obs.intArray
  let lastDiscState :=
    getDiscState st.discStates st.numDiscStates st.lastObservation.intArray
  match buildPhi st.numStates (lastDiscState : ℚ) lastState,
        buildPhi st.numStates (newDiscState : ℚ) newState with
  | some phi_t, some phi_tp =>
      let newIntAction := getActionFun st planner u d newState newDiscState
      some (PlannerCall.update phi_t lastAction (some phi_tp) reward ::
              getActionCalls st u newState newDiscState,
            newIntAction,
            { st with lastAction := newIntAction, lastObservation := obs })
  | _, _ => none

/-- Embeds `ModelBasedAgent.agent_end` (modelbased.py lines 174-188): build
`phi_t` from the stored Episode Context and call
`self.planner.updateExperience(phi_t, lastAction, None, reward)`; the returned
list holds every planner call made. -/
def agent_end (st : AgentState) (reward : ℚ) : Option (List PlannerCall) :=
  let lastState := st.lastObservation.doubleArray
  let lastAction := st.lastAction
  let lastDiscState :=
    getDiscState st.discStates st.numDiscStates st.lastObservation.intArray
  (buildPhi st.numStates (lastDiscState : ℚ) lastState).map
    (fun phi_t => [PlannerCall.update phi_t lastAction none reward])

lemma buildPhi_eq_fuse (n : ℕ) (q : ℚ) (state : List ℚ)
    (h : state.length = n) : buildPhi n q state = some (fuse q state) := by
  simp [buildPhi, sliceFill, h, fuse]

/-- C3: with exploration rate `epsilon = 0`, `getAction` never takes the
random-exploration branch: for every state and every nonnegative uniform draw
`u` it returns exactly the planner's choice on the fused vector (so a stub
planner's fixed action is returned on every call).  When `u < epsilon`, the
returned action is the `randint(0, numActions-1)` draw: it lies in
`[0, numActions)` and equals the raw uniform draw `d` whenever
`d < numActions`, so a uniform draw induces the uniform distribution on
`[0, numActions)`. -/
theorem getAction_policy (st : AgentState) (planner : List ℚ → ℤ) (u : ℚ)
    (d : ℕ) (state : List ℚ) (disc : ℤ) (h0 : 0 ≤ u) :
    (st.epsilon = 0 →
        getActionFun st planner u d state disc = planner (fuse (disc : ℚ) state)) ∧
    (u < st.epsilon →
        getActionFun st planner u d state disc = randint 0 (st.numActions - 1) d) ∧
    (u < st.epsilon → 0 < st.numActions →
        0 ≤ getActionFun st planner u d state disc ∧
        getActionFun st planner u d state disc < st.numActions) ∧
    (u < st.epsilon → (d : ℤ) < st.numActions →
        getActionFun st planner u d state disc = (d : ℤ)) := by
  have hmod : st.numActions - 1 - 0 + 1 = st.numActions := by ring
  refine ⟨?_, ?_, ?_, ?_⟩
  · intro he
    simp only [getActionFun]
    rw [if_neg (by rw [he]; exact not_lt.mpr h0)]
  · intro hu
    simp only [getActionFun, if_pos hu]
  · intro hu hn
    simp only [getActionFun, if_pos hu, randint]
    rw [hmod, zero_add]
    exact ⟨Int.emod_nonneg _ (by omega), Int.emod_lt_of_pos _ hn⟩
  · intro hu hd
    simp only [getActionFun, if_pos hu, randint]
    rw [hmod, zero_add]
    exact Int.emod_eq_of_lt (Int.natCast_nonneg d) hd

theorem getAction_policy_witness :
    (0 : ℚ) ≤ 0 ∧
    getActionFun ⟨⟨1, [((0 : ℤ), (1 : ℤ))], 2, 3⟩, 0, 0, ⟨[], []⟩⟩
      (fun _ => 2) 0 5 [1] 0 = 2 ∧
    getActionFun ⟨⟨1, [((0 : ℤ), (1 : ℤ))], 2, 3⟩, 1, 0, ⟨[], []⟩⟩
      (fun _ => 2) 0 2 [1] 0 = 2 := by
  refine ⟨le_refl 0, ?_, ?_⟩
  · exact (getAction_policy ⟨⟨1, [((0 : ℤ), (1 : ℤ))], 2, 3⟩, 0, 0, ⟨[], []⟩⟩
      (fun _ => 2) 0 5 [1] 0 (le_refl 0)).1 rfl
  · have h := (getAction_policy ⟨⟨1, [((0 : ℤ), (1 : ℤ))], 2, 3⟩, 1, 0, ⟨[], []⟩⟩
      (fun _ => 2) 0 2 [1] 0 (le_refl 0)).2.2.2 (by norm_num) (by norm_num)
    exact h.trans (by decide)

/-- C2: the fused planning vector over a continuous-feature array of length
`N` has length `N + 1`, holds the encoded discrete index at position 0 and the
continuous features verbatim in order at positions `1..N`; this holds for the
vector handed to the planner inside `getAction` and for the `phi_t` / `phi_tp`
vectors of `agent_step` (whose length is `numStates + 1`, with the observation
arrays having the declared length `numStates`). -/
theorem fused_vector_layout (st : AgentState) (planner : List ℚ → ℤ) (u : ℚ)
    (d : ℕ) (reward : ℚ) (obs : Obs) (disc : ℤ) (state : List ℚ)
    (hu : ¬ u < st.epsilon)
    (hlast : st.lastObservation.doubleArray.length = st.numStates)
    (hnew : obs.doubleArray.length = st.numStates) :
    ((fuse (disc : ℚ) state).length = state.length + 1 ∧
     (fuse (disc : ℚ) state).head? = some (disc : ℚ) ∧
     (fuse (disc : ℚ) state).drop 1 = state ∧
     getActionFun st planner u d state disc = planner (fuse (disc : ℚ) state)) ∧
    (∃ a st2,
      agent_step st planner u d reward obs =
        some (PlannerCall.update
                (fuse (getDiscState st.discStates st.numDiscStates
                    st.lastObservation.intArray : ℚ) st.lastObservation.doubleArray)
                st.lastAction
                (some (fuse (getDiscState st.discStates st.numDiscStates
                    obs.intArray : ℚ) obs.doubleArray))
                reward ::
              getActionCalls st u obs.doubleArray
                (getDiscState st.discStates st.numDiscStates obs.intArray),
              a, st2) ∧
      (fuse (getDiscState st.discStates st.numDiscStates
          st.lastObservation.intArray : ℚ) st.lastObservation.doubleArray).length
        = st.numStates + 1 ∧
      (fuse (getDiscState st.discStates st.numDiscStates
          obs.intArray : ℚ) obs.doubleArray).length = st.numStates + 1) := by
  have h1 := buildPhi_eq_fuse st.numStates
    (getDiscState st.discStates st.numDiscStates st.lastObservation.intArray : ℚ)
    st.lastObservation.doubleArray hlast
  have h2 := buildPhi_eq_fuse st.numStates
    (getDiscState st.discStates st.numDiscStates obs.intArray : ℚ)
    obs.doubleArray hnew
  refine ⟨⟨rfl, rfl, rfl, ?_⟩, ?_⟩
  · simp only [getActionFun, if_neg hu]
  · refine ⟨getActionFun st planner u d obs.doubleArray
        (getDiscState st.discStates st.numDiscStates obs.intArray),
      { st with
          lastAction := getActionFun st planner u d obs.doubleArray
            (getDiscState st.discStates st.numDiscStates obs.intArray),
          lastObservation := obs }, ?_, ?_, ?_⟩
    · simp only [agent_step]
      rw [h1, h2]
    · show st.lastObservation.doubleArray.length + 1 = st.numStates + 1
      rw [hlast]
    · show obs.doubleArray.length + 1 = st.numStates + 1
      rw [hnew]

theorem fused_vector_layout_witness :
    (¬ (1 : ℚ) < 0) ∧
    ((⟨[5], [0]⟩ : Obs)).doubleArray.length = 1 ∧
    ((⟨[7], [1]⟩ : Obs)).doubleArray.length = 1 ∧
    getActionFun ⟨⟨1, [((0 : ℤ), (1 : ℤ))], 2, 2⟩, 0, 1, ⟨[5], [0]⟩⟩
      (fun _ => 1) 1 0 [7] 1 = 1 := by
  refine ⟨by norm_num, by decide, by decide, ?_⟩
  have h := fused_vector_layout
    ⟨⟨1, [((0 : ℤ), (1 : ℤ))], 2, 2⟩, 0, 1, ⟨[5], [0]⟩⟩
    (fun _ => 1) 1 0 1 ⟨[7], [1]⟩ 1 [7]
    (by norm_num) (by decide) (by decide)
  exact h.1.2.2.2.trans (by decide)

/-- C5: `agent_step` submits exactly one experience tuple
`(prevFused, prevAction, newFused, reward)` to the planner, built from the
stored Episode Context and the new observation, before any action query; it
then chooses the next action on the new observation's features, replaces the
Episode Context with the new action and observation, and returns the new
action. -/
theorem agent_step_sequencing (st : AgentState) (planner : List ℚ → ℤ)
    (u : ℚ) (d : ℕ) (reward : ℚ) (obs : Obs) (phi_t phi_tp : List ℚ)
    (h1 : buildPhi st.numStates (getDiscState st.discStates st.numDiscStates
        st.lastObservation.intArray : ℚ) st.lastObservation.doubleArray = some phi_t)
    (h2 : buildPhi st.numStates (getDiscState st.discStates st.numDiscStates
        obs.intArray : ℚ) obs.doubleArray = some phi_tp) :
    agent_step st planner u d reward obs =
      some (PlannerCall.update phi_t st.lastAction (some phi_tp) reward ::
              getActionCalls st u obs.doubleArray
                (getDiscState st.discStates st.numDiscStates obs.intArray),
            getActionFun st planner u d obs.doubleArray
              (getDiscState st.discStates st.numDiscStates obs.intArray),
            { st with
                lastAction := getActionFun st planner u d obs.doubleArray
                  (getDiscState st.discStates st.numDiscStates obs.intArray),
                lastObservation := obs }) := by
  simp only [agent_step]
  rw [h1, h2]

theorem agent_step_sequencing_witness :
    buildPhi 1 ((getDiscState [((0 : ℤ), (1 : ℤ))] 2 [0] : ℚ)) [5]
      = some [0, 5] ∧
    buildPhi 1 ((getDiscState [((0 : ℤ), (1 : ℤ))] 2 [1] : ℚ)) [7]
      = some [1, 7] ∧
    agent_step ⟨⟨1, [((0 : ℤ), (1 : ℤ))], 2, 2⟩, 0, 1, ⟨[5], [0]⟩⟩
        (fun _ => 1) 1 0 1 ⟨[7], [1]⟩ =
      some ([PlannerCall.update [0, 5] 1 (some [1, 7]) 1,
             PlannerCall.query [1, 7]],
            1, ⟨⟨1, [((0 : ℤ), (1 : ℤ))], 2, 2⟩, 0, 1, ⟨[7], [1]⟩⟩) := by
  refine ⟨by decide, by decide, ?_⟩
  have h := agent_step_sequencing
    ⟨⟨1, [((0 : ℤ), (1 : ℤ))], 2, 2⟩, 0, 1, ⟨[5], [0]⟩⟩
    (fun _ => 1) 1 0 1 ⟨[7], [1]⟩ [0, 5] [1, 7]
    (by decide) (by decide)
  exact h.trans (by decide)

/-- C4: for every reward, `agent_end` submits exactly one experience tuple
whose state is the fused encoding of the stored Episode Context's observation,
whose action is the stored last action, whose next-state field is the terminal
marker `none` (never a numeric vector), and whose reward is the given reward;
it never issues an action query. -/
theorem agent_end_terminal (st : AgentState) (reward : ℚ) (phi_t : List ℚ)
    (h : buildPhi st.numStates (getDiscState st.discStates st.numDiscStates
        st.lastObservation.intArray : ℚ) st.lastObservation.doubleArray = some phi_t) :
    agent_end st reward = some [PlannerCall.update phi_t st.lastAction none reward] ∧
    ∀ tr, agent_end st reward = some tr →
      tr.length = 1 ∧ (∀ s, PlannerCall.query s ∉ tr) ∧
      ∀ p a ns r2, PlannerCall.update p a ns r2 ∈ tr →
        ns = none ∧ a = st.lastAction ∧ r2 = reward ∧ p = phi_t := by
  have he : agent_end st reward
      = some [PlannerCall.update phi_t st.lastAction none reward] := by
    simp only [agent_end]
    rw [h]
    rfl
  refine ⟨he, ?_⟩
  intro tr htr
  rw [he] at htr
  injection htr with htr2
  subst htr2
  refine ⟨rfl, ?_, ?_⟩
  · intro s hs
    simp at hs
  · intro p a ns r2 hmem
    simp only [List.mem_singleton, PlannerCall.update.injEq] at hmem
    exact ⟨hmem.2.2.1, hmem.2.1, hmem.2.2.2, hmem.1⟩

theorem agent_end_terminal_witness :
    buildPhi 1 ((getDiscState [((0 : ℤ), (1 : ℤ))] 2 [1] : ℚ)) [7]
      = some [1, 7] ∧
    agent_end ⟨⟨1, [((0 : ℤ), (1 : ℤ))], 2, 2⟩, 0, 1, ⟨[7], [1]⟩⟩ 2 =
      some [PlannerCall.update [1, 7] 1 none 2] :=
  ⟨by decide,
    (agent_end_terminal ⟨⟨1, [((0 : ℤ), (1 : ℤ))], 2, 2⟩, 0, 1, ⟨[7], [1]⟩⟩
      2 [1, 7] (by decide)).1⟩

/-- A fragment of the Python object heap, used to state the aliasing claim
about the Episode Context: addresses below `next` are allocated, `mem` gives
each address's current object value. -/
structure PyHeap (α : Type) where
  next : ℕ
  mem : ℕ → α

/-- In-place mutation of the object at address `r` (what the external caller
may do to its own observation buffer after a lifecycle call returns). -/
def heapWrite {α : Type} (h : PyHeap α) (r : ℕ) (v : α) : PyHeap α :=
  ⟨h.next, fun x => if x = r then v else h.mem x⟩

/-- Embeds `copy.deepcopy`: allocate a fresh address holding a copy of the
value at `r`, leaving every existing address untouched. -/
def deepcopy {α : Type} (h : PyHeap α) (r : ℕ) : PyHeap α × ℕ :=
  (⟨h.next + 1, fun x => if x = h.next then h.mem r else h.mem x⟩, h.next)

/-- Embeds the Episode Context stores of `agent_start` (modelbased.py lines
133-134) and `agent_step` (lines 170-171):
`self.lastObservation = copy.deepcopy(observation)` (and identically
`self.lastAction = copy.deepcopy(returnAction)`).  The returned address is the
one the agent keeps as its stored context. -/
def storeEpisodeContext (h : PyHeap Obs) (obsRef : ℕ) : PyHeap Obs × ℕ :=
  deepcopy h obsRef

/-- C9: the Episode Context stored by `agent_start` / `agent_step` is an
independent snapshot, not an alias of the caller-supplied object: the stored
address differs from the caller's, it holds the observation's value at call
time, mutating the caller's object afterwards does not change the stored
context, and the store mutates no pre-existing object (full replacement, no
in-place mutation). -/
theorem context_isolation (h : PyHeap Obs) (obsRef : ℕ) (hv : obsRef < h.next) :
    (storeEpisodeContext h obsRef).2 ≠ obsRef ∧
    (storeEpisodeContext h obsRef).1.mem (storeEpisodeContext h obsRef).2
      = h.mem obsRef ∧
    (∀ o2 : Obs,
      (heapWrite (storeEpisodeContext h obsRef).1 obsRef o2).mem
          (storeEpisodeContext h obsRef).2 = h.mem obsRef) ∧
    (∀ a, a < h.next → (storeEpisodeContext h obsRef).1.mem a = h.mem a) := by
  have hne : h.next ≠ obsRef := by omega
  refine ⟨hne, ?_, ?_, ?_⟩
  · simp [storeEpisodeContext, deepcopy]
  · intro o2
    simp [storeEpisodeContext, deepcopy, heapWrite, hne]
  · intro a ha
    have hane : a ≠ h.next := by omega
    simp [storeEpisodeContext, deepcopy, hane]

theorem context_isolation_witness :
    (0 : ℕ) < 1 ∧
    (heapWrite (storeEpisodeContext ⟨1, fun _ => ⟨[], []⟩⟩ 0).1 0
        ⟨[5], [5]⟩).mem (storeEpisodeContext ⟨1, fun _ => ⟨[], []⟩⟩ 0).2
      = Obs.mk [] [] :=
  ⟨Nat.zero_lt_one,
    (context_isolation ⟨1, fun _ => ⟨[], []⟩⟩ 0 Nat.zero_lt_one).2.2.1 ⟨[5], [5]⟩⟩

/-- The output of the external task-specification parser
(`TaskSpecVRLGLUE3.TaskSpecParser`), reduced to the getters `agent_init`
consults: `valid`, `getDoubleObservations()`, `getIntObservations()`,
`getDoubleActions()`, `getIntActions()`, `isSpecial` on the two bounds of the
first integer action dimension, and `getRewardRange()`. -/
structure TaskSpec where
  valid : Bool
  doubleObservations : List (ℚ × ℚ)
  intObservations : List (ℤ × ℤ)
  doubleActions : List (ℚ × ℚ)
  intActions : List (ℤ × ℤ)
  specialMinAction : Bool
  specialMaxAction : Bool
  rewardRange : ℚ × ℚ

/-- How `agent_init` terminates abnormally: a failed `assert` with its message,
or an uncaught `NameError` naming the undefined identifier that was
referenced. -/
inductive InitError where
  | assertionError (msg : String)
  | nameError (missing : String)
deriving DecidableEq

/-- Embeds `ModelBasedAgent.agent_init` (modelbased.py lines 48-79).  On a
valid spec the asserts run in program order and, if all pass, the derived
configuration is returned (the Model and Planner are instantiated only on this
path).  On an invalid spec the Python branch is
`print "Task Spec could not be parsed: "+taskSpecString`; the name
`taskSpecString` is not defined anywhere (the parameter is `taskSpec`), so
evaluating the print's argument raises `NameError` — had the print succeeded,
the method would have continued past the branch and returned normally with
`self.model` and `self.planner` still `None`. -/
def agent_init (ts : TaskSpec) : Except InitError AgentConfig :=
  if ts.valid then
    if 0 < ts.doubleObservations.length + ts.intObservations.length then
      if ts.intActions.length = 1 then
        if ts.doubleActions.length = 0 then
          if ts.specialMinAction then
            Except.error (InitError.assertionError
              " expecting min action to be a number not a special value")
          else if ts.specialMaxAction then
            Except.error (InitError.assertionError
              " expecting max action to be a number not a special value")
          else
            Except.ok
              { numStates := ts.doubleObservations.length
                discStates := ts.intObservations
                numDiscStates := numDiscStatesOf ts.intObservations
                numActions := (ts.intActions.headI).2 + 1 }
        else Except.error (InitError.assertionError "expecting no continuous actions")
      else Except.error (InitError.assertionError "expecting 1-dimensional discrete actions")
    else Except.error (InitError.assertionError
      "expecting at least one continuous or discrete observation")
  else Except.error (InitError.nameError "taskSpecString")

/-- C6 (failing part, parse failure): on an unparsable task specification
`agent_init` does not raise a descriptive configuration error — it raises a
`NameError` for the undefined identifier `taskSpecString` (the intended
error-message print references a name that does not exist; had the print
worked, the method would have returned normally without instantiating the
Model and Planner).  The assert-guarded preconditions, by contrast, do abort
with their descriptive messages, as the second conjunct shows on the
zero-feature input. -/
theorem agent_init_parse_failure :
    agent_init { valid := false, doubleObservations := [], intObservations := [],
                 doubleActions := [], intActions := [], specialMinAction := false,
                 specialMaxAction := false, rewardRange := (0, 0) } =
      Except.error (InitError.nameError "taskSpecString") ∧
    agent_init { valid := true, doubleObservations := [], intObservations := [],
                 doubleActions := [], intActions := [((0 : ℤ), (1 : ℤ))],
                 specialMinAction := false, specialMaxAction := false,
                 rewardRange := (0, 0) } =
      Except.error (InitError.assertionError
        "expecting at least one continuous or discrete observation") :=
  ⟨rfl, rfl⟩

/-- C7: after a successful `agent_init`, `numDiscStates` equals the product of
`max - min + 1` over the discrete observation dimensions, and equals `1` when
there are zero discrete dimensions. -/
theorem numDiscStates_eq_product (ts : TaskSpec) (cfg : AgentConfig)
    (h : agent_init ts = Except.ok cfg) :
    cfg.numDiscStates = (cfg.discStates.map dimSize).prod ∧
    (cfg.discStates = [] → cfg.numDiscStates = 1) := by
  unfold agent_init at h
  repeat' split at h
  all_goals try exact Except.noConfusion h
  injection h with h2
  subst h2
  constructor
  · exact numDiscStatesOf_eq _
  · intro he
    have he2 : ts.intObservations = [] := he
    show numDiscStatesOf ts.intObservations = 1
    rw [he2]
    rfl

theorem numDiscStates_eq_product_witness :
    agent_init { valid := true, doubleObservations := [((0 : ℚ), (1 : ℚ))],
                 intObservations := [((0 : ℤ), (1 : ℤ)), ((0 : ℤ), (2 : ℤ))],
                 doubleActions := [], intActions := [((0 : ℤ), (1 : ℤ))],
                 specialMinAction := false, specialMaxAction := false,
                 rewardRange := (0, 0) } =
      Except.ok ⟨1, [((0 : ℤ), (1 : ℤ)), ((0 : ℤ), (2 : ℤ))], 6, 2⟩ ∧
    (⟨1, [((0 : ℤ), (1 : ℤ)), ((0 : ℤ), (2 : ℤ))], 6, 2⟩ : AgentConfig).numDiscStates
      = ((⟨1, [((0 : ℤ), (1 : ℤ)), ((0 : ℤ), (2 : ℤ))], 6, 2⟩ : AgentConfig).discStates.map
          dimSize).prod := by
  refine ⟨rfl, ?_⟩
  exact (numDiscStates_eq_product
    { valid := true, doubleObservations := [((0 : ℚ), (1 : ℚ))],
      intObservations := [((0 : ℤ), (1 : ℤ)), ((0 : ℤ), (2 : ℤ))],
      doubleActions := [], intActions := [((0 : ℤ), (1 : ℤ))],
      specialMinAction := false, specialMaxAction := false,
      rewardRange := (0, 0) }
    ⟨1, [((0 : ℤ), (1 : ℤ)), ((0 : ℤ), (2 : ℤ))], 6, 2⟩ rfl).1

/-- C10: a successful `agent_init` sets `numActions` to `max + 1` for the
declared integer-action range `[min, max]`, independently of `min`; hence the
exploration branch of `getAction` draws from the integers `[0, max]`, not from
the declared `[min, max]`. -/
theorem numActions_from_max_only (ts : TaskSpec) (cfg : AgentConfig)
    (amin amax : ℤ) (hact : ts.intActions = [(amin, amax)]) (hmax : 0 ≤ amax)
    (h : agent_init ts = Except.ok cfg) :
    cfg.numActions = amax + 1 ∧
    (∀ st : AgentState, st.toAgentConfig = cfg →
      ∀ (planner : List ℚ → ℤ) (u : ℚ) (d : ℕ) (state : List ℚ) (disc : ℤ),
        u < st.epsilon →
          0 ≤ getActionFun st planner u d state disc ∧
          getActionFun st planner u d state disc ≤ amax) := by
  have hna : cfg.numActions = amax + 1 := by
    unfold agent_init at h
    repeat' split at h
    all_goals try exact Except.noConfusion h
    injection h with h2
    subst h2
    show (ts.intActions.headI).2 + 1 = amax + 1
    rw [hact]
    rfl
  refine ⟨hna, ?_⟩
  intro st hst planner u d state disc hu
  have hstn : st.numActions = amax + 1 := by
    show st.toAgentConfig.numActions = amax + 1
    rw [hst, hna]
  simp only [getActionFun, if_pos hu, randint]
  have hmod : st.numActions - 1 - 0 + 1 = st.numActions := by ring
  rw [hmod, zero_add, hstn]
  constructor
  · exact Int.emod_nonneg _ (by omega)
  · have hlt := Int.emod_lt_of_pos (d : ℤ) (show (0 : ℤ) < amax + 1 by omega)
    omega

theorem numActions_from_max_only_witness :
    ({ valid := true, doubleObservations := [((0 : ℚ), (1 : ℚ))],
       intObservations := [], doubleActions := [],
       intActions := [((5 : ℤ), (7 : ℤ))], specialMinAction := false,
       specialMaxAction := false, rewardRange := (0, 0) } : TaskSpec).intActions
      = [((5 : ℤ), (7 : ℤ))] ∧
    (0 : ℤ) ≤ 7 ∧
    agent_init { valid := true, doubleObservations := [((0 : ℚ), (1 : ℚ))],
                 intObservations := [], doubleActions := [],
                 intActions := [((5 : ℤ), (7 : ℤ))], specialMinAction := false,
                 specialMaxAction := false, rewardRange := (0, 0) } =
      Except.ok ⟨1, [], 1, 8⟩ ∧
    (⟨1, [], 1, 8⟩ : AgentConfig).numActions = 7 + 1 := by
  refine ⟨rfl, by decide, rfl, ?_⟩
  exact (numActions_from_max_only
    { valid := true, doubleObservations := [((0 : ℚ), (1 : ℚ))],
      intObservations := [], doubleActions := [],
      intActions := [((5 : ℤ), (7 : ℤ))], specialMinAction := false,
      specialMaxAction := false, rewardRange := (0, 0) }
    ⟨1, [], 1, 8⟩ 5 7 rfl (by decide) rfl).1

end PyRL
